import Mathlib

/-!
Shallow embedding of the go-flake identifier generator (package `flake`,
file `flake.go`) and proofs about it.

Conventions used to embed Go integer arithmetic into `Int`:

* Go `int32` / `int64` values are carried as `Int`; wherever Go arithmetic
  can overflow, the result is wrapped with `wrap32` / `wrap64`, which
  reduce an integer into the two's-complement range `[-2^31, 2^31)` /
  `[-2^63, 2^63)`.
* Go's arithmetic right shift `x >> n` on a signed integer is
  `x / 2 ^ n` (Lean's `Int` division is Euclidean division, which is
  floor division for a positive divisor, exactly the semantics of an
  arithmetic shift).
* Go's `x & mask` with `mask = 2^w - 1` applied to a two's-complement
  value is `x % 2 ^ w` (Lean's `Int.emod` returns the representative in
  `[0, 2^w)` for a positive modulus, which is the low `w` bits).
* Go's `x | y` where `y` is a byte value in `[0, 256)` and `x` has zero
  low 8 bits (`x ≡ 0 [ZMOD 256]`) equals `x + y`; the same holds for the
  byte-aligned ors inside the sequence-field ladder (`s << 16`, `r << 8`
  and plain bytes occupy disjoint bit ranges).  The definitions below use
  `+` in those places; every operand meets the disjointness condition by
  construction (random bytes are in `[0, 256)` and the shifted parts are
  multiples of the corresponding power of two, a property preserved by
  two's-complement wrapping because `2^32` and `2^64` are multiples of
  `2^8` and `2^16`).
* The `crypto/rand` random bytes are passed in as explicit arguments
  `r1 r2 : Int` (each call of `next` draws at most two bytes); theorems
  assume `0 ≤ r < 256` for them, matching the value range of a byte.
* `sync.Mutex` only serialises access and carries no data, so it is not
  part of the state record; each call of `next` is modelled as one atomic
  state transition, which is exactly what the mutex enforces.
* `time.Now().UnixNano()` is passed in as the explicit argument `now`.
-/

/-- Reduce an integer into the two's-complement `int32` range
`[-2^31, 2^31)`; this is the effect of Go `int32` overflow. -/
def wrap32 (x : Int) : Int := (x + 2 ^ 31) % 2 ^ 32 - 2 ^ 31

/-- Reduce an integer into the two's-complement `int64` range
`[-2^63, 2^63)`; this is the effect of Go `int64` overflow. -/
def wrap64 (x : Int) : Int := (x + 2 ^ 63) % 2 ^ 64 - 2 ^ 63

/-- The `uint64` bit pattern of an `int64` value (Go `uint64(f)`). -/
def toUInt64 (x : Int) : Nat := (x % 2 ^ 64).toNat

/-- The `int64` value of a `uint64` bit pattern (Go `int64(u)` /
`Flake(u)`). -/
def toInt64 (v : Nat) : Int := wrap64 (v : Int)

/-- The generator state `flaker` from flake.go (the `sync.Mutex` field
carries no data and is omitted, see the header comment). -/
structure flaker where
  raw : Bool
  machineId : Int
  epochStart : Int
  sequence : Int
  currentInterval : Int
deriving DecidableEq, Repr

/-- Constant `intervalBits = 32` from flake.go. -/
def intervalBits : Nat := 32

/-- Constant `sequenceBits = 23` from flake.go. -/
def sequenceBits : Nat := 23

/-- Constant `machineIdBits = 8` from flake.go. -/
def machineIdBits : Nat := 8

/-- Constant `ignoredTimeBits = 30` from flake.go. -/
def ignoredTimeBits : Nat := 30

/-- Constant `intervalMask = (1 << intervalBits) - 1` from flake.go. -/
def intervalMask : Int := (1 <<< intervalBits) - 1

/-- Constant `machineIdMask = (1 << machineIdBits) - 1` from flake.go. -/
def machineIdMask : Int := (1 <<< machineIdBits) - 1

/-- The interval computation from `flaker.next`:
`interval := ((time.Now().UnixNano() - g.epochStart) >> ignoredTimeBits) & intervalMask`.
The `int64` subtraction wraps, the arithmetic shift is floor division by
`2^30` and the mask keeps the low 32 bits. -/
def intervalOf (now epochStart : Int) : Int :=
  (wrap64 (now - epochStart) / 2 ^ ignoredTimeBits) % 2 ^ intervalBits

/-- The loop guard from `flaker.next`:
`loop := (g.sequence + 0x400000 - 0x2020) >> sequenceBits`, an `int32`
computation (the addition may wrap). -/
def loopGuard (g : flaker) : Int :=
  wrap32 (g.sequence + 0x400000 - 0x2020) / 2 ^ sequenceBits

/-- The 23-bit sequence/random field ladder from the same-interval branch
of `flaker.next`, applied to the post-increment counter `s` and the
random bytes `r1 r2` (drawn left to right in the source):
if `s < 0x20` then `(s << 16) | (r1 << 8) | r2`,
else if `s < 0x2020` then `(0x200000 - 0x2000 + (s << 8)) | r1`,
else `0x400000 - 0x2020 + s`; all in `int32` arithmetic, with the
byte-aligned `|` written as `+` (see header comment). -/
def allocField (s r1 r2 : Int) : Int :=
  if s < 0x20 then
    wrap32 (s * 2 ^ 16) + r1 * 2 ^ 8 + r2
  else if s < 0x2020 then
    wrap32 (0x200000 - 0x2000 + wrap32 (s * 2 ^ 8)) + r1
  else
    wrap32 (0x400000 - 0x2020 + s)

/-- The method `flaker.next` from flake.go: computes the interval, the
loop guard and the 23-bit sequence/random field, updates the state and
assembles the raw 63-bit id
`raw = ((interval << 23) + sequence) << 8 | machineId` in `int64`
arithmetic.  Returns the raw id together with the updated state. -/
def flaker.next (g : flaker) (now r1 r2 : Int) : Int × flaker :=
  let interval := intervalOf now g.epochStart
  let loop := loopGuard g
  if interval - loop ≤ g.currentInterval then
    let s := wrap32 (g.sequence + 1)
    let sequence := allocField s r1 r2
    let raw := wrap64 (wrap64 (interval * 2 ^ sequenceBits) + sequence)
    let raw2 := wrap64 (raw * 2 ^ machineIdBits) + g.machineId
    (raw2, { g with sequence := s })
  else
    let sequence := (0 : Int)
    let raw := wrap64 (wrap64 (interval * 2 ^ sequenceBits) + sequence)
    let raw2 := wrap64 (raw * 2 ^ machineIdBits) + g.machineId
    (raw2, { g with currentInterval := interval, sequence := 0 })

/-- One destination byte of the bit shuffle in `flaker.Next`:
`uid[l] |= byte((raw & (1 << (i*8 + l))) >> (i*7 + l))` accumulated over
`i = 0..7`, on the `uint64` bit pattern `v` of `raw`.  (The Go loops run
`i` outermost, but each `uid[l]` only accumulates its own `i`-terms, so
fixing `l` first is the same computation.  `byte(...)` is `% 256`; for
the sign bit `i*8+l = 63` Go's arithmetic shift sign-extends, but the
truncation to a byte discards exactly the extended bits, so the logical
shift on the bit pattern used here agrees with it.) -/
def shuffleByte (v : Nat) (l : Nat) : Nat :=
  (List.range 8).foldl
    (fun acc i => acc ||| ((v &&& (1 <<< (i * 8 + l))) >>> (i * 7 + l)) % 2 ^ 8) 0

/-- The full bit shuffle of `flaker.Next` on a `uint64` bit pattern:
the eight destination bytes assembled little-endian
(`binary.LittleEndian.Uint64(uid)`). -/
def shuffleN (v : Nat) : Nat :=
  (List.range 8).foldl (fun acc l => acc ||| shuffleByte v l <<< (l * 8)) 0

/-- The shuffle as applied to a `Flake` (`int64`) value by `flaker.Next`:
shuffle the `uint64` bit pattern, then convert back with
`Flake(binary.LittleEndian.Uint64(uid))`. -/
def shuffleFlake (x : Int) : Int := toInt64 (shuffleN (toUInt64 x))

/-- The method `flaker.Next` from flake.go: draw a raw id from
`flaker.next`; return it unchanged in raw mode, otherwise shuffle its
bits.  Returns the id together with the updated state. -/
def flaker.Next (g : flaker) (now r1 r2 : Int) : Int × flaker :=
  let p := g.next now r1 r2
  if g.raw then p else (shuffleFlake p.1, p.2)

/-- The method `flaker.WithMachineId` from flake.go: the receiver is
copied by value, the machine id replaced, and (not modelled) a fresh
mutex installed; all remaining fields, including the counter state, are
the receiver's. -/
def flaker.WithMachineId (g : flaker) (machineId : Int) : flaker :=
  { g with machineId := machineId }

/-- The method `flaker.WithEpochStart` from flake.go: the receiver is
copied by value, the epoch start replaced by `t = time.UnixNano()`, and
(not modelled) a fresh mutex installed; all remaining fields, including
the counter state, are the receiver's. -/
def flaker.WithEpochStart (g : flaker) (t : Int) : flaker :=
  { g with epochStart := t }

/-- A freshly configured generator: zero counter state, as built by the
package-level `Default` / `Raw` initialisers. -/
def initFlaker (raw : Bool) (machineId epochStart : Int) : flaker :=
  { raw := raw, machineId := machineId, epochStart := epochStart,
    sequence := 0, currentInterval := 0 }

/-- Reachability of generator states: `Reaches g g'` holds when `g'`
arises from `g` by a finite sequence of `next` calls with arbitrary
clock readings and byte-valued random draws. -/
inductive Reaches : flaker → flaker → Prop
  | refl (g : flaker) : Reaches g g
  | step (g g' : flaker) (now r1 r2 : Int) :
      Reaches g g' → 0 ≤ r1 → r1 < 256 → 0 ≤ r2 → r2 < 256 →
      Reaches g (g'.next now r1 r2).2

/-! ## Basic lemmas about the wrapping helpers -/

theorem wrap32_eq {x : Int} (h1 : -(2 ^ 31) ≤ x) (h2 : x < 2 ^ 31) :
    wrap32 x = x := by
  unfold wrap32; omega

theorem wrap64_eq {x : Int} (h1 : -(2 ^ 63) ≤ x) (h2 : x < 2 ^ 63) :
    wrap64 x = x := by
  unfold wrap64; omega

theorem wrap32_bounds (x : Int) : -(2 ^ 31) ≤ wrap32 x ∧ wrap32 x < 2 ^ 31 := by
  unfold wrap32; omega

theorem wrap64_bounds (x : Int) : -(2 ^ 63) ≤ wrap64 x ∧ wrap64 x < 2 ^ 63 := by
  unfold wrap64; omega

theorem intervalOf_bounds (now epochStart : Int) :
    0 ≤ intervalOf now epochStart ∧ intervalOf now epochStart < 2 ^ 32 := by
  unfold intervalOf wrap64 intervalBits ignoredTimeBits; omega

/-! ## C9: the interval computation -/

/-- C9: for every call to `next()`, the interval is computed from the
nanosecond clock and the epoch origin as
`interval = ((now - epochStart) >> 30) & (2^32 - 1)`: it is always a
value in `[0, 2^32)`, it wraps with period `2^62` nanoseconds (the full
epoch) rather than erroring, and inside a single epoch
(`0 ≤ now - epochStart < 2^62`) it is exactly the number of elapsed
`2^30`-nanosecond units. -/
theorem intervalOf_spec (now epochStart : Int) :
    0 ≤ intervalOf now epochStart ∧
    intervalOf now epochStart < 2 ^ 32 ∧
    intervalOf (now + 2 ^ 62) epochStart = intervalOf now epochStart ∧
    (0 ≤ now - epochStart → now - epochStart < 2 ^ 62 →
      intervalOf now epochStart = (now - epochStart) / 2 ^ 30) := by
  unfold intervalOf wrap64 intervalBits ignoredTimeBits
  refine ⟨by omega, by omega, by omega, fun h1 h2 => by omega⟩

/-- Witness for C9 at a concrete input: one nanosecond less than 5
intervals after the epoch start maps to interval 4, and the in-epoch
closed form applies. -/
theorem intervalOf_spec_witness :
    (0 : Int) ≤ 5 * 2 ^ 30 - 1 - 2 ^ 10 ∧ (5 * 2 ^ 30 - 1 - 2 ^ 10 : Int) < 2 ^ 62 ∧
    intervalOf (5 * 2 ^ 30 - 1) (2 ^ 10) = 4 := by
  refine ⟨by decide, by decide, ?_⟩
  have h := (intervalOf_spec (5 * 2 ^ 30 - 1) (2 ^ 10)).2.2.2 (by decide) (by decide)
  rw [h]; decide

/-! ## The two branches of `next`, as equations -/

/-- When the call lands in the same logical interval
(`interval - loopGuard ≤ currentInterval`), `next` increments the
counter and builds the id from the allocation ladder. -/
theorem flaker.next_same_interval (g : flaker) (now r1 r2 : Int)
    (hcond : intervalOf now g.epochStart - loopGuard g ≤ g.currentInterval) :
    g.next now r1 r2 =
      (wrap64 (wrap64 (wrap64 (intervalOf now g.epochStart * 2 ^ 23) +
          allocField (wrap32 (g.sequence + 1)) r1 r2) * 2 ^ 8) + g.machineId,
       { g with sequence := wrap32 (g.sequence + 1) }) := by
  simp only [flaker.next, sequenceBits, machineIdBits]
  rw [if_pos hcond]

/-- When the interval has genuinely advanced
(`interval - loopGuard > currentInterval`), `next` stores the new
interval, zeroes the counter, and builds the id with a zero
sequence/random field. -/
theorem flaker.next_new_interval (g : flaker) (now r1 r2 : Int)
    (hcond : ¬ intervalOf now g.epochStart - loopGuard g ≤ g.currentInterval) :
    g.next now r1 r2 =
      (wrap64 (wrap64 (wrap64 (intervalOf now g.epochStart * 2 ^ 23) + 0) * 2 ^ 8) +
         g.machineId,
       { g with currentInterval := intervalOf now g.epochStart, sequence := 0 }) := by
  simp only [flaker.next, sequenceBits, machineIdBits]
  rw [if_neg hcond]

/-! ## C1: the three-branch allocation ladder -/

/-- C1: for every call of `next` that lands in the same logical interval,
with post-increment counter `s = sequence + 1` (counter within the
23-bit field's counting capacity), the returned raw id carries the
23-bit sequence/random field produced by the three-branch ladder:
`s < 32` gives the 5-bit counter with 16 fresh random bits
(`s·2^16 + r1·2^8 + r2`); `32 ≤ s < 8224` gives the widened counter with
8 fresh random bits (`0x200000 - 0x2000 + s·2^8 + r1`); `8224 ≤ s` gives
the pure offset counter `0x400000 - 0x2020 + s` with no randomness, so
the random-bit width transitions 16 → 8 → 0 exactly at 32 and 8224. -/
theorem next_ladder (g : flaker) (now r1 r2 : Int)
    (hs0 : 0 ≤ g.sequence) (hs1 : g.sequence < 0x40201F)
    (hr1a : 0 ≤ r1) (hr1b : r1 < 256) (hr2a : 0 ≤ r2) (hr2b : r2 < 256)
    (hsame : intervalOf now g.epochStart ≤ g.currentInterval) :
    (g.next now r1 r2).2.sequence = g.sequence + 1 ∧
    (g.sequence + 1 < 32 →
      (g.next now r1 r2).1 =
        intervalOf now g.epochStart * 2 ^ 31 +
          ((g.sequence + 1) * 2 ^ 16 + r1 * 2 ^ 8 + r2) * 2 ^ 8 + g.machineId) ∧
    (32 ≤ g.sequence + 1 → g.sequence + 1 < 8224 →
      (g.next now r1 r2).1 =
        intervalOf now g.epochStart * 2 ^ 31 +
          (0x200000 - 0x2000 + (g.sequence + 1) * 2 ^ 8 + r1) * 2 ^ 8 + g.machineId) ∧
    (8224 ≤ g.sequence + 1 →
      (g.next now r1 r2).1 =
        intervalOf now g.epochStart * 2 ^ 31 +
          (0x400000 - 0x2020 + (g.sequence + 1)) * 2 ^ 8 + g.machineId) := by
  have hI := intervalOf_bounds now g.epochStart
  have hloop : loopGuard g = 0 := by
    unfold loopGuard sequenceBits
    rw [wrap32_eq (by omega) (by omega)]; omega
  have hcond : intervalOf now g.epochStart - loopGuard g ≤ g.currentInterval := by
    rw [hloop]; omega
  rw [flaker.next_same_interval g now r1 r2 hcond,
    wrap32_eq (x := g.sequence + 1) (by omega) (by omega)]
  refine ⟨rfl, fun h1 => ?_, fun h2a h2b => ?_, fun h3 => ?_⟩
  · simp only [allocField]
    rw [if_pos (by omega : g.sequence + 1 < 0x20),
      wrap32_eq (by omega) (by omega)]
    unfold wrap64; omega
  · simp only [allocField]
    rw [if_neg (by omega : ¬ g.sequence + 1 < 0x20),
      if_pos (by omega : g.sequence + 1 < 0x2020),
      wrap32_eq (x := (g.sequence + 1) * 2 ^ 8) (by omega) (by omega),
      wrap32_eq (by omega) (by omega)]
    unfold wrap64; omega
  · simp only [allocField]
    rw [if_neg (by omega : ¬ g.sequence + 1 < 0x20),
      if_neg (by omega : ¬ g.sequence + 1 < 0x2020),
      wrap32_eq (by omega) (by omega)]
    unfold wrap64; omega

/-- Witness for C1 at concrete inputs, one per branch of the ladder:
counter 5 (low load, 16 random bits), counter 100 (medium load, 8 random
bits), counter 9000 (high load, no randomness), all inside interval 3. -/
theorem next_ladder_witness :
    (flaker.next ⟨true, 9, 0, 5, 3⟩ (3 * 2 ^ 30) 17 18).1 =
      3 * 2 ^ 31 + (6 * 2 ^ 16 + 17 * 2 ^ 8 + 18) * 2 ^ 8 + 9 ∧
    (flaker.next ⟨true, 9, 0, 100, 3⟩ (3 * 2 ^ 30) 17 18).1 =
      3 * 2 ^ 31 + (0x200000 - 0x2000 + 101 * 2 ^ 8 + 17) * 2 ^ 8 + 9 ∧
    (flaker.next ⟨true, 9, 0, 9000, 3⟩ (3 * 2 ^ 30) 17 18).1 =
      3 * 2 ^ 31 + (0x400000 - 0x2020 + 9001) * 2 ^ 8 + 9 := by
  refine ⟨?_, ?_, ?_⟩
  · have h := next_ladder ⟨true, 9, 0, 5, 3⟩ (3 * 2 ^ 30) 17 18
      (by decide) (by decide) (by decide) (by decide) (by decide) (by decide)
      (by decide)
    rw [h.2.1 (by decide)]; decide
  · have h := next_ladder ⟨true, 9, 0, 100, 3⟩ (3 * 2 ^ 30) 17 18
      (by decide) (by decide) (by decide) (by decide) (by decide) (by decide)
      (by decide)
    rw [h.2.2.1 (by decide) (by decide)]; decide
  · have h := next_ladder ⟨true, 9, 0, 9000, 3⟩ (3 * 2 ^ 30) 17 18
      (by decide) (by decide) (by decide) (by decide) (by decide) (by decide)
      (by decide)
    rw [h.2.2.2 (by decide)]; decide

/-! ## C2: the first call of a new interval -/

/-- Counterexample to C2: from a fresh generator (counter 0, current
interval 0), a call at interval 5 genuinely advances the interval, so
the claim says the returned 23-bit field is the low-load branch applied
to the reset counter (a small counter value with the 16 fresh random
bits `r1 = 1, r2 = 2`).  In fact the code leaves the local field at
zero: the output is exactly `5 * 2^31` — it differs from the low-load
value for reset counter 0 and for counter 1, and it does not change when
the random bytes change to 200, 201, so the field carries no randomness
at all. -/
theorem next_new_interval_field_not_low_load :
    (flaker.next ⟨true, 0, 0, 0, 0⟩ (5 * 2 ^ 30) 1 2).1 = 5 * 2 ^ 31 ∧
    5 * 2 ^ 31 ≠ 5 * 2 ^ 31 + ((0 : Int) * 2 ^ 16 + 1 * 2 ^ 8 + 2) * 2 ^ 8 ∧
    5 * 2 ^ 31 ≠ 5 * 2 ^ 31 + ((1 : Int) * 2 ^ 16 + 1 * 2 ^ 8 + 2) * 2 ^ 8 ∧
    (flaker.next ⟨true, 0, 0, 0, 0⟩ (5 * 2 ^ 30) 200 201).1 =
      (flaker.next ⟨true, 0, 0, 0, 0⟩ (5 * 2 ^ 30) 1 2).1 := by
  refine ⟨by decide, by decide, by decide, by decide⟩

/-- C2 as amended: when the interval has genuinely advanced
(`interval - loopGuard > currentInterval`), `next` stores the new
interval, resets the counter to zero, and the 23-bit field returned for
this same call is exactly zero — no counter bits and no random bits; the
low-load behaviour starts with the following call.  The returned id is
`interval * 2^31 + machineId`, independent of the random arguments. -/
theorem next_new_interval_spec (g : flaker) (now r1 r2 : Int)
    (hadv : g.currentInterval < intervalOf now g.epochStart - loopGuard g) :
    (g.next now r1 r2).1 = intervalOf now g.epochStart * 2 ^ 31 + g.machineId ∧
    (g.next now r1 r2).2 =
      { g with currentInterval := intervalOf now g.epochStart, sequence := 0 } := by
  have hI := intervalOf_bounds now g.epochStart
  rw [flaker.next_new_interval g now r1 r2 (by omega)]
  refine ⟨?_, rfl⟩
  show wrap64 (wrap64 (wrap64 (intervalOf now g.epochStart * 2 ^ 23) + 0) * 2 ^ 8) +
      g.machineId = _
  unfold wrap64; omega

/-- Witness for C2's amended theorem: a fresh generator called at
interval 5 returns `5 * 2^31 + machineId` and the reset state. -/
theorem next_new_interval_spec_witness :
    (flaker.next ⟨true, 7, 0, 0, 0⟩ (5 * 2 ^ 30) 1 2).1 = 5 * 2 ^ 31 + 7 ∧
    (flaker.next ⟨true, 7, 0, 0, 0⟩ (5 * 2 ^ 30) 1 2).2 =
      ⟨true, 7, 0, 0, 5⟩ := by
  have h := next_new_interval_spec ⟨true, 7, 0, 0, 0⟩ (5 * 2 ^ 30) 1 2 (by decide)
  refine ⟨?_, ?_⟩
  · rw [h.1]; decide
  · rw [h.2]; decide

/-! ## C6: configuration changes -/

/-- Counterexample to C6: a generator that has already issued
identifiers (counter 5, current interval 7) is *not* given zeroed
counter state by `WithMachineId` or `WithEpochStart`: the Go methods
copy the receiver by value and replace only the configured field (and
the mutex), so the derived instances keep counter 5 and interval 7. -/
theorem with_config_not_zeroed :
    (flaker.WithMachineId ⟨false, 1, 100, 5, 7⟩ 3).sequence = 5 ∧
    (flaker.WithMachineId ⟨false, 1, 100, 5, 7⟩ 3).currentInterval = 7 ∧
    ¬ (flaker.WithMachineId ⟨false, 1, 100, 5, 7⟩ 3).sequence = 0 ∧
    (flaker.WithEpochStart ⟨false, 1, 100, 5, 7⟩ 999).sequence = 5 ∧
    (flaker.WithEpochStart ⟨false, 1, 100, 5, 7⟩ 999).currentInterval = 7 ∧
    ¬ (flaker.WithEpochStart ⟨false, 1, 100, 5, 7⟩ 999).currentInterval = 0 := by
  refine ⟨rfl, rfl, by decide, rfl, rfl, by decide⟩

/-- C6 as amended: `WithMachineId b` and `WithEpochStart t` each return a
new generator value with the other configuration field unchanged and
with the counter state *copied from the receiver* (sequence counter and
current interval preserved, not zeroed); the receiver itself is not
mutated (the Go methods take the receiver by value), and a fresh mutex
is installed (the mutex carries no data and is outside this model). -/
theorem with_config_spec (g : flaker) (b t : Int) :
    (g.WithMachineId b).machineId = b ∧
    (g.WithMachineId b).epochStart = g.epochStart ∧
    (g.WithMachineId b).raw = g.raw ∧
    (g.WithMachineId b).sequence = g.sequence ∧
    (g.WithMachineId b).currentInterval = g.currentInterval ∧
    (g.WithEpochStart t).epochStart = t ∧
    (g.WithEpochStart t).machineId = g.machineId ∧
    (g.WithEpochStart t).raw = g.raw ∧
    (g.WithEpochStart t).sequence = g.sequence ∧
    (g.WithEpochStart t).currentInterval = g.currentInterval := by
  exact ⟨rfl, rfl, rfl, rfl, rfl, rfl, rfl, rfl, rfl, rfl⟩

/-! ## The bit shuffle: transpose of the 8x8 bit matrix -/

theorem range8 : List.range 8 = [0, 1, 2, 3, 4, 5, 6, 7] := rfl

/-- One accumulated term of `shuffleByte`: the bit of `v` at source
position `i' * 8 + l`, placed at position `i'` of the destination
byte. -/
theorem shuffle_atom (v i' l j : Nat) (hi' : i' < 8) :
    ((((v &&& (1 <<< (i' * 8 + l))) >>> (i' * 7 + l)) % 2 ^ 8)).testBit j
      = (v.testBit (i' * 8 + l) && decide (i' = j)) := by
  rw [Nat.shiftLeft_eq, one_mul, Nat.and_two_pow]
  cases h : v.testBit (i' * 8 + l) with
  | false =>
      simp
  | true =>
      simp only [Bool.toNat_true, one_mul, Nat.shiftRight_eq_div_pow, Bool.true_and]
      rw [Nat.pow_div (by omega) (by omega)]
      have he : i' * 8 + l - (i' * 7 + l) = i' := by omega
      rw [he, Nat.mod_eq_of_lt (Nat.pow_lt_pow_right (by omega) hi'),
        Nat.testBit_two_pow]

/-- Bit `i` of destination byte `l` is bit `8 * i + l` of the source. -/
theorem shuffleByte_testBit (v l i : Nat) (hi : i < 8) :
    (shuffleByte v l).testBit i = v.testBit (8 * i + l) := by
  unfold shuffleByte
  rw [range8]
  simp only [List.foldl, Nat.testBit_or, Nat.zero_testBit]
  rw [shuffle_atom v 0 l i (by omega), shuffle_atom v 1 l i (by omega),
    shuffle_atom v 2 l i (by omega), shuffle_atom v 3 l i (by omega),
    shuffle_atom v 4 l i (by omega), shuffle_atom v 5 l i (by omega),
    shuffle_atom v 6 l i (by omega), shuffle_atom v 7 l i (by omega)]
  interval_cases i <;> simp

theorem shuffleByte_lt (v l : Nat) : shuffleByte v l < 2 ^ 8 := by
  unfold shuffleByte
  rw [range8]
  simp only [List.foldl]
  repeat' apply Nat.or_lt_two_pow
  all_goals first
    | decide
    | exact Nat.mod_lt _ (by norm_num)

theorem shuffleByte_testBit_high (v l j : Nat) (hj : 8 ≤ j) :
    (shuffleByte v l).testBit j = false :=
  Nat.testBit_lt_two_pow
    (lt_of_lt_of_le (shuffleByte_lt v l) (Nat.pow_le_pow_right (by omega) hj))

/-- The shuffle moves source bit `8 * i + l` to destination bit
`8 * l + i`: it is the transpose of the 8x8 matrix of bits. -/
theorem shuffleN_testBit (v i l : Nat) (hi : i < 8) (hl : l < 8) :
    (shuffleN v).testBit (8 * l + i) = v.testBit (8 * i + l) := by
  unfold shuffleN
  rw [range8]
  simp only [List.foldl, Nat.testBit_or, Nat.zero_testBit, Nat.testBit_shiftLeft]
  interval_cases i <;> interval_cases l <;>
    simp [shuffleByte_testBit_high, shuffleByte_testBit, -Nat.testBit_zero]

theorem shuffle_term_lt (v l : Nat) (hl : l < 8) :
    shuffleByte v l <<< (l * 8) < 2 ^ 64 := by
  rw [Nat.shiftLeft_eq]
  calc shuffleByte v l * 2 ^ (l * 8)
      ≤ 255 * 2 ^ 56 :=
        Nat.mul_le_mul (by have := shuffleByte_lt v l; omega)
          (Nat.pow_le_pow_right (by omega) (by omega))
    _ < 2 ^ 64 := by norm_num

theorem shuffleN_lt (v : Nat) : shuffleN v < 2 ^ 64 := by
  unfold shuffleN
  rw [range8]
  simp only [List.foldl]
  refine Nat.or_lt_two_pow (Nat.or_lt_two_pow (Nat.or_lt_two_pow (Nat.or_lt_two_pow
    (Nat.or_lt_two_pow (Nat.or_lt_two_pow (Nat.or_lt_two_pow (Nat.or_lt_two_pow
      (by norm_num) (shuffle_term_lt v 0 (by omega))) (shuffle_term_lt v 1 (by omega)))
      (shuffle_term_lt v 2 (by omega))) (shuffle_term_lt v 3 (by omega)))
      (shuffle_term_lt v 4 (by omega))) (shuffle_term_lt v 5 (by omega)))
      (shuffle_term_lt v 6 (by omega))) (shuffle_term_lt v 7 (by omega))

theorem shuffleN_testBit_high (v j : Nat) (hj : 64 ≤ j) :
    (shuffleN v).testBit j = false :=
  Nat.testBit_lt_two_pow
    (lt_of_lt_of_le (shuffleN_lt v) (Nat.pow_le_pow_right (by omega) hj))

/-- The transpose is an involution on 64-bit values. -/
theorem shuffleN_shuffleN (v : Nat) (hv : v < 2 ^ 64) :
    shuffleN (shuffleN v) = v := by
  apply Nat.eq_of_testBit_eq
  intro j
  by_cases hj : j < 64
  · have hj' : j = 8 * (j / 8) + j % 8 := by omega
    rw [hj', shuffleN_testBit _ _ _ (by omega) (by omega),
      shuffleN_testBit _ _ _ (by omega) (by omega)]
  · rw [shuffleN_testBit_high _ _ (by omega),
      Nat.testBit_lt_two_pow
        (lt_of_lt_of_le hv (Nat.pow_le_pow_right (by omega) (by omega)))]

theorem lt_two_pow_63 (x : Nat) (h64 : x < 2 ^ 64) (h : x.testBit 63 = false) :
    x < 2 ^ 63 := by
  rcases Nat.lt_or_ge x (2 ^ 63) with h' | h'
  · exact h'
  · exfalso
    have ht : x.testBit 63 = true := by
      rw [Nat.testBit_to_div_mod]
      have hq : x / 2 ^ 63 = 1 := by omega
      rw [hq]
      rfl
    rw [h] at ht
    exact Bool.false_ne_true ht

/-- The sign bit (position 63 = destination `8 * 7 + 7`) is a fixed
point of the transpose. -/
theorem shuffleN_bit63 (v : Nat) : (shuffleN v).testBit 63 = v.testBit 63 := by
  have h := shuffleN_testBit v 7 7 (by omega) (by omega)
  norm_num at h
  exact h

theorem shuffleN_lt_two_pow_63 (v : Nat) (hv : v < 2 ^ 63) :
    shuffleN v < 2 ^ 63 := by
  refine lt_two_pow_63 _ (shuffleN_lt v) ?_
  rw [shuffleN_bit63]
  exact Nat.testBit_lt_two_pow hv

/-- On a non-negative 63-bit `Flake` value the shuffle acts as the plain
transpose of the bit pattern, and the result is again non-negative and
below `2^63`. -/
theorem shuffleFlake_nonneg_eq (x : Int) (h0 : 0 ≤ x) (h1 : x < 2 ^ 63) :
    shuffleFlake x = (shuffleN x.toNat : Int) ∧
    0 ≤ shuffleFlake x ∧ shuffleFlake x < 2 ^ 63 := by
  have hN : (x.toNat : Int) = x := Int.toNat_of_nonneg h0
  have h3 : x.toNat < 2 ^ 63 := by omega
  have h4 : shuffleN x.toNat < 2 ^ 63 := shuffleN_lt_two_pow_63 _ h3
  have he : shuffleFlake x = (shuffleN x.toNat : Int) := by
    unfold shuffleFlake toInt64 toUInt64
    rw [Int.emod_eq_of_lt h0 (by omega), wrap64_eq (by omega) (by omega)]
  refine ⟨he, ?_, ?_⟩ <;> rw [he] <;> omega

/-- The shuffle applied by `Next` is self-inverse on 63-bit values. -/
theorem shuffleFlake_selfInverse (x : Int) (h0 : 0 ≤ x) (h1 : x < 2 ^ 63) :
    shuffleFlake (shuffleFlake x) = x := by
  obtain ⟨he, hp0, hp1⟩ := shuffleFlake_nonneg_eq x h0 h1
  obtain ⟨he2, _, _⟩ := shuffleFlake_nonneg_eq _ hp0 hp1
  rw [he2, he, Int.toNat_natCast, shuffleN_shuffleN _ (by omega)]
  exact Int.toNat_of_nonneg h0

/-! ## Reachability helpers -/

theorem Reaches.trans {g1 g2 g3 : flaker} (h12 : Reaches g1 g2)
    (h23 : Reaches g2 g3) : Reaches g1 g3 := by
  induction h23 with
  | refl => exact h12
  | step g' now r1 r2 h a b c d ih => exact Reaches.step _ g' now r1 r2 ih a b c d

/-- With the clock frozen at the stored interval, every call of `next`
lands in the same-interval branch and increments the counter by one, so
`n` calls add `n` to the counter (as long as the `int32` arithmetic does
not wrap). -/
theorem reaches_seq (g : flaker) (now : Int)
    (hI : intervalOf now g.epochStart = g.currentInterval)
    (h0 : 0 ≤ g.sequence) :
    ∀ n : Nat, g.sequence + n + 0x3FDFE0 < 2 ^ 31 →
      Reaches g { g with sequence := g.sequence + n } := by
  intro n
  induction n with
  | zero =>
      intro _
      have he : ({ g with sequence := g.sequence + ((0 : Nat) : Int) } : flaker) = g := by
        simp
      rw [he]
      exact Reaches.refl g
  | succ k ih =>
      intro hb
      have hbk : g.sequence + (k : Int) + 0x3FDFE0 < 2 ^ 31 := by
        push_cast at hb
        omega
      have hk := ih (by push_cast; omega)
      have hcond : intervalOf now
            ({ g with sequence := g.sequence + (k : Int) } : flaker).epochStart -
            loopGuard { g with sequence := g.sequence + (k : Int) } ≤
            ({ g with sequence := g.sequence + (k : Int) } : flaker).currentInterval := by
        show intervalOf now g.epochStart - loopGuard _ ≤ g.currentInterval
        rw [hI]
        have hlg : 0 ≤ loopGuard { g with sequence := g.sequence + (k : Int) } := by
          unfold loopGuard sequenceBits
          show 0 ≤ wrap32 (g.sequence + (k : Int) + 0x400000 - 0x2020) / 2 ^ 23
          rw [show g.sequence + (k : Int) + 0x400000 - 0x2020
              = g.sequence + (k : Int) + 0x3FDFE0 from by ring,
            wrap32_eq (by omega) (by omega)]
          omega
        omega
      have hstep := Reaches.step g { g with sequence := g.sequence + (k : Int) }
        now 0 0 hk (by norm_num) (by norm_num) (by norm_num) (by norm_num)
      rw [flaker.next_same_interval _ now 0 0 hcond] at hstep
      have he : ({ { g with sequence := g.sequence + (k : Int) } with
            sequence := wrap32 (({ g with sequence := g.sequence + (k : Int) } :
              flaker).sequence + 1) } : flaker)
          = { g with sequence := g.sequence + ((k + 1 : Nat) : Int) } := by
        show ({ g with sequence := wrap32 (g.sequence + (k : Int) + 1) } : flaker) = _
        rw [wrap32_eq (by omega) (by omega)]
        push_cast
        rw [add_assoc]
      rw [← he]
      exact hstep

/-! ## C8: 63-bit non-negativity -/

/-- The state with counter `0x40201F` in the last interval of the epoch
is reachable from a fresh raw-mode generator: one call at the epoch's
last interval resets the state to that interval, and `0x40201F` further
calls with a frozen clock count the sequence up. -/
theorem reaches_epoch_end_state :
    Reaches (initFlaker true 0 0) ⟨true, 0, 0, 0x40201F, 2 ^ 32 - 1⟩ := by
  have h1 : Reaches (initFlaker true 0 0) ⟨true, 0, 0, 0, 2 ^ 32 - 1⟩ := by
    have hstep := Reaches.step (initFlaker true 0 0) (initFlaker true 0 0)
      ((2 ^ 32 - 1) * 2 ^ 30) 0 0 (Reaches.refl _) (by norm_num) (by norm_num)
      (by norm_num) (by norm_num)
    rw [show ((initFlaker true 0 0).next ((2 ^ 32 - 1) * 2 ^ 30) 0 0).2
        = (⟨true, 0, 0, 0, 2 ^ 32 - 1⟩ : flaker) from by decide] at hstep
    exact hstep
  have h2 := reaches_seq ⟨true, 0, 0, 0, 2 ^ 32 - 1⟩ ((2 ^ 32 - 1) * 2 ^ 30)
    (by decide) (by norm_num) 0x40201F (by norm_num)
  rw [show ({ (⟨true, 0, 0, 0, 2 ^ 32 - 1⟩ : flaker) with
      sequence := (⟨true, 0, 0, 0, 2 ^ 32 - 1⟩ : flaker).sequence
        + ((0x40201F : Nat) : Int) } : flaker)
      = (⟨true, 0, 0, 0x40201F, 2 ^ 32 - 1⟩ : flaker) from by decide] at h2
  exact h1.trans h2

/-- Counterexample to C8: there is a generator state reachable from a
fresh raw-mode generator (machine id 0, epoch start 0) from which a call
of `Next` — at the clock reading that puts the interval at its maximum
`2^32 - 1`, with both random bytes 0 — returns a negative identifier:
the 23-bit field rolls over (post-increment counter `0x402020`), the
carry pushes the interval past `2^32`, and the `int64` shift overflows
into the sign bit, producing `-2^63`. -/
theorem Next_sign_violation :
    ∃ g : flaker, Reaches (initFlaker true 0 0) g ∧
      ¬ (0 ≤ (g.Next ((2 ^ 32 - 1) * 2 ^ 30) 0 0).1) :=
  ⟨⟨true, 0, 0, 0x40201F, 2 ^ 32 - 1⟩, reaches_epoch_end_state, by decide⟩

/-- Bounds for the raw id produced by `next`: below the 23-bit field
rollover point (counter below `0x40201F`), every id is in `[0, 2^63)`. -/
theorem next_id_bounds (g : flaker) (now r1 r2 : Int)
    (hm0 : 0 ≤ g.machineId) (hm1 : g.machineId < 2 ^ 8)
    (hs0 : 0 ≤ g.sequence) (hs1 : g.sequence < 0x40201F)
    (hr1a : 0 ≤ r1) (hr1b : r1 < 256) (hr2a : 0 ≤ r2) (hr2b : r2 < 256) :
    0 ≤ (g.next now r1 r2).1 ∧ (g.next now r1 r2).1 < 2 ^ 63 := by
  have hI := intervalOf_bounds now g.epochStart
  by_cases hcond : intervalOf now g.epochStart - loopGuard g ≤ g.currentInterval
  · rw [flaker.next_same_interval _ _ _ _ hcond]
    dsimp only
    rw [wrap32_eq (x := g.sequence + 1) (by omega) (by omega)]
    have hF : 0 ≤ allocField (g.sequence + 1) r1 r2 ∧
        allocField (g.sequence + 1) r1 r2 < 2 ^ 23 := by
      unfold allocField
      split_ifs with h1 h2
      · rw [wrap32_eq (by omega) (by omega)]
        constructor <;> omega
      · rw [wrap32_eq (x := (g.sequence + 1) * 2 ^ 8) (by omega) (by omega),
          wrap32_eq (by omega) (by omega)]
        constructor <;> omega
      · rw [wrap32_eq (by omega) (by omega)]
        constructor <;> omega
    unfold wrap64
    constructor <;> omega
  · rw [flaker.next_new_interval _ _ _ _ hcond]
    dsimp only
    unfold wrap64
    constructor <;> omega

/-- C8 as amended: every identifier produced by `Next`, in both shuffled
and raw mode, from every generator state whose machine id is a byte and
whose sequence counter is in `[0, 0x40201F)` (below the 23-bit field
rollover point), for every clock reading and byte-valued random draws,
is a 63-bit non-negative integer: `0 ≤ id < 2^63`.  (The restriction on
the counter is forced by the counterexample: at the rollover point
combined with the epoch's last interval the sign bit is set.) -/
theorem Next_id_63_bits (g : flaker) (now r1 r2 : Int)
    (hm0 : 0 ≤ g.machineId) (hm1 : g.machineId < 2 ^ 8)
    (hs0 : 0 ≤ g.sequence) (hs1 : g.sequence < 0x40201F)
    (hr1a : 0 ≤ r1) (hr1b : r1 < 256) (hr2a : 0 ≤ r2) (hr2b : r2 < 256) :
    0 ≤ (g.Next now r1 r2).1 ∧ (g.Next now r1 r2).1 < 2 ^ 63 := by
  have hnext := next_id_bounds g now r1 r2 hm0 hm1 hs0 hs1 hr1a hr1b hr2a hr2b
  unfold flaker.Next
  by_cases hr : g.raw
  · rw [if_pos hr]
    exact hnext
  · rw [if_neg hr]
    dsimp only
    have := shuffleFlake_nonneg_eq (g.next now r1 r2).1 hnext.1 hnext.2
    exact ⟨this.2.1, this.2.2⟩

/-- Witness for C8's amended theorem: a shuffled-mode generator with
machine id 7 and counter 5 produces an id in `[0, 2^63)`. -/
theorem Next_id_63_bits_witness :
    0 ≤ (flaker.Next ⟨false, 7, 0, 5, 3⟩ (3 * 2 ^ 30) 17 18).1 ∧
    (flaker.Next ⟨false, 7, 0, 5, 3⟩ (3 * 2 ^ 30) 17 18).1 < 2 ^ 63 :=
  Next_id_63_bits ⟨false, 7, 0, 5, 3⟩ (3 * 2 ^ 30) 17 18 (by norm_num)
    (by norm_num) (by norm_num) (by norm_num) (by norm_num) (by norm_num)
    (by norm_num) (by norm_num)

/-! ## C7 and C10: properties of the shuffle -/

/-- Counterexample to C7: there is no 63-bit raw value on which applying
the shuffle transform twice fails to return the original — the 8x8 bit
transpose is its own inverse, so the double shuffle is the identity on
every 63-bit value. -/
theorem shuffle_twice_no_witness :
    ¬ ∃ x : Int, 0 ≤ x ∧ x < 2 ^ 63 ∧ shuffleFlake (shuffleFlake x) ≠ x := by
  rintro ⟨x, h0, h1, hne⟩
  exact hne (shuffleFlake_selfInverse x h0 h1)

/-- C7 as amended: the bit-shuffle permutation applied by `Next` in
shuffled mode *is* self-inverse: for every 63-bit raw value, the shuffle
stays within the 63-bit range and applying it twice returns the original
value. -/
theorem shuffle_twice_id (x : Int) (h0 : 0 ≤ x) (h1 : x < 2 ^ 63) :
    0 ≤ shuffleFlake x ∧ shuffleFlake x < 2 ^ 63 ∧
    shuffleFlake (shuffleFlake x) = x := by
  obtain ⟨_, hp0, hp1⟩ := shuffleFlake_nonneg_eq x h0 h1
  exact ⟨hp0, hp1, shuffleFlake_selfInverse x h0 h1⟩

/-- Witness for C7's amended theorem at the identifier from the project
README (hex 4030404040700001). -/
theorem shuffle_twice_id_witness :
    (0 : Int) ≤ 0x4030404040700001 ∧ (0x4030404040700001 : Int) < 2 ^ 63 ∧
    shuffleFlake (shuffleFlake 0x4030404040700001) = 0x4030404040700001 :=
  ⟨by norm_num, by norm_num,
    (shuffle_twice_id 0x4030404040700001 (by norm_num) (by norm_num)).2.2⟩

/-- C10: the bit shuffle moves the bit at position `8*i + l` of the raw
value to position `8*l + i` of the output (the transpose of the 8x8 bit
matrix); consequently it is an involution — hence a bijection — on
64-bit values, it maps bit 63 to itself, two distinct raw 63-bit values
always yield distinct shuffled identifiers, and the shuffled identifier
is non-negative (below `2^63`) whenever the raw value is. -/
theorem shuffle_transpose_spec :
    (∀ v i l : Nat, i < 8 → l < 8 →
      (shuffleN v).testBit (8 * l + i) = v.testBit (8 * i + l)) ∧
    (∀ v : Nat, v < 2 ^ 64 → shuffleN (shuffleN v) = v) ∧
    (∀ v w : Nat, v < 2 ^ 64 → w < 2 ^ 64 → shuffleN v = shuffleN w → v = w) ∧
    (∀ v : Nat, (shuffleN v).testBit 63 = v.testBit 63) ∧
    (∀ x y : Int, 0 ≤ x → x < 2 ^ 63 → 0 ≤ y → y < 2 ^ 63 → x ≠ y →
      shuffleFlake x ≠ shuffleFlake y) ∧
    (∀ x : Int, 0 ≤ x → x < 2 ^ 63 →
      0 ≤ shuffleFlake x ∧ shuffleFlake x < 2 ^ 63) := by
  refine ⟨fun v i l hi hl => shuffleN_testBit v i l hi hl,
    fun v hv => shuffleN_shuffleN v hv, ?_, shuffleN_bit63, ?_, ?_⟩
  · intro v w hv hw he
    have : shuffleN (shuffleN v) = shuffleN (shuffleN w) := by rw [he]
    rwa [shuffleN_shuffleN v hv, shuffleN_shuffleN w hw] at this
  · intro x y hx0 hx1 hy0 hy1 hne he
    apply hne
    rw [← shuffleFlake_selfInverse x hx0 hx1, ← shuffleFlake_selfInverse y hy0 hy1,
      he]
  · intro x hx0 hx1
    exact ⟨(shuffleFlake_nonneg_eq x hx0 hx1).2.1,
      (shuffleFlake_nonneg_eq x hx0 hx1).2.2⟩

/-- Witness for C10 at concrete inputs: bit 19 = 8*2+3 of the shuffle of
`v = 2^19` is bit 28 = 8*3+4 ... concretely, the transpose property at
`v = 0xF0F0F0F0`, `i = 3`, `l = 4`, the involution at `v = 987654321`,
injectivity at `5 ≠ 9`, and sign preservation at `x = 2^62`. -/
theorem shuffle_transpose_spec_witness :
    (shuffleN 0xF0F0F0F0).testBit (8 * 4 + 3) = (0xF0F0F0F0 : Nat).testBit (8 * 3 + 4) ∧
    shuffleN (shuffleN 987654321) = 987654321 ∧
    ((5 : Int) ≠ 9 → shuffleFlake 5 ≠ shuffleFlake 9) ∧
    (0 ≤ shuffleFlake (2 ^ 62) ∧ shuffleFlake (2 ^ 62) < 2 ^ 63) := by
  refine ⟨shuffle_transpose_spec.1 0xF0F0F0F0 3 4 (by norm_num) (by norm_num),
    shuffle_transpose_spec.2.1 987654321 (by norm_num),
    fun h => shuffle_transpose_spec.2.2.2.2.1 5 9 (by norm_num) (by norm_num)
      (by norm_num) (by norm_num) h,
    shuffle_transpose_spec.2.2.2.2.2 (2 ^ 62) (by norm_num) (by norm_num)⟩

/-! ## C3: raw-mode monotonicity -/

/-- The state with counter `0x4FFFFF` in interval 1 is reachable from a
fresh raw-mode generator: one call at interval 1 stores that interval,
then `0x4FFFFF` calls with the clock frozen at interval 1 count the
sequence up (for counters past the field rollover the loop guard is 1,
and `1 - 1 ≤ 1` keeps the calls in the same-interval branch). -/
theorem reaches_rollover_state :
    Reaches (initFlaker true 0 0) ⟨true, 0, 0, 0x4FFFFF, 1⟩ := by
  have h1 : Reaches (initFlaker true 0 0) ⟨true, 0, 0, 0, 1⟩ := by
    have hstep := Reaches.step (initFlaker true 0 0) (initFlaker true 0 0)
      (2 ^ 30) 0 0 (Reaches.refl _) (by norm_num) (by norm_num)
      (by norm_num) (by norm_num)
    rw [show ((initFlaker true 0 0).next (2 ^ 30) 0 0).2
        = (⟨true, 0, 0, 0, 1⟩ : flaker) from by decide] at hstep
    exact hstep
  have h2 := reaches_seq ⟨true, 0, 0, 0, 1⟩ (2 ^ 30)
    (by decide) (by norm_num) 0x4FFFFF (by norm_num)
  rw [show ({ (⟨true, 0, 0, 0, 1⟩ : flaker) with
      sequence := (⟨true, 0, 0, 0, 1⟩ : flaker).sequence
        + ((0x4FFFFF : Nat) : Int) } : flaker)
      = (⟨true, 0, 0, 0x4FFFFF, 1⟩ : flaker) from by decide] at h2
  exact h1.trans h2

/-- C3 fails on the code: from a reachable state of a raw-mode generator
(counter `0x4FFFFF` pre-claimed past interval 1 by the field rollover),
two consecutive `Next` calls under a strictly increasing clock — far
from the epoch end — return raw values that strictly *decrease*.  The
first call (at interval 2) rolls the field over into interval 3's
space; the second call (at interval 3) passes the loop-guard test
(`3 - 1 > 1`), resets, and emits interval 3 with a zero field, which is
smaller than the first call's id. -/
theorem raw_monotonicity_violation :
    ∃ g : flaker, Reaches (initFlaker true 0 0) g ∧
      (2 : Int) * 2 ^ 30 ≤ 3 * 2 ^ 30 ∧
      ((g.Next (2 * 2 ^ 30) 0 0).2.Next (3 * 2 ^ 30) 0 0).1 <
        (g.Next (2 * 2 ^ 30) 0 0).1 :=
  ⟨⟨true, 0, 0, 0x4FFFFF, 1⟩, reaches_rollover_state, by norm_num, by decide⟩

/-! ## The codec

The repository encodes the 8-byte big-endian form of an identifier with
`encoding/hex`, `encoding/base32` (hex alphabet, no padding) and
`encoding/base64` (URL alphabet, no padding) from the Go standard
library, whose sources are not part of the repository.  They are
embedded here through their arithmetic meaning: a `k`-character
encoding of the big-endian value in base `2^bits`, padded on the right
with zero bits to a whole number of digits; decoding maps characters
back through the alphabet and discards the padding bits (the Go
decoders are not strict about the padding bits' values, and reject any
character outside the alphabet — the byte-level `\r`/`\n` skipping of
the Go decoders only changes *where* a malformed input fails, not
whether it fails, for the fixed input lengths used here). -/

/-- Big-endian value of a digit list in base `b`. -/
def valBE (b : Nat) (ds : List Nat) : Nat := ds.foldl (fun a d => a * b + d) 0

/-- The `k`-digit big-endian base-`b` representation of `n`. -/
def digitsBE (b : Nat) : Nat → Nat → List Nat
  | 0, _ => []
  | k + 1, n => n / b ^ k :: digitsBE b k (n % b ^ k)

/-- Modelled from the spec: the lowercase hexadecimal alphabet of Go's
`encoding/hex` (not part of the repository sources). -/
def hexAlphabet : List Char := "0123456789abcdef".data

/-- Modelled from the spec: the extended-hex base32 alphabet of Go's
`base32.HexEncoding` (not part of the repository sources). -/
def b32Alphabet : List Char := "0123456789ABCDEFGHIJKLMNOPQRSTUV".data

/-- Modelled from the spec: the URL-safe base64 alphabet of Go's
`base64.RawURLEncoding` (not part of the repository sources). -/
def b64Alphabet : List Char :=
  "ABCDEFGHIJKLMNOPQRSTUVWXYZabcdefghijklmnopqrstuvwxyz0123456789-_".data

def hexDigitChar (d : Nat) : Char := hexAlphabet.getD d '?'

def b32DigitChar (d : Nat) : Char := b32Alphabet.getD d '?'

def b64DigitChar (d : Nat) : Char := b64Alphabet.getD d '?'

/-- Modelled from the spec: the character acceptance table of Go's
`hex.DecodeString` (`fromHexChar`: digits, lowercase and uppercase hex
letters; not part of the repository sources). -/
def hexVal (c : Char) : Option Nat :=
  if '0' ≤ c ∧ c ≤ '9' then some (c.toNat - '0'.toNat)
  else if 'a' ≤ c ∧ c ≤ 'f' then some (c.toNat - 'a'.toNat + 10)
  else if 'A' ≤ c ∧ c ≤ 'F' then some (c.toNat - 'A'.toNat + 10)
  else none

/-- Modelled from the spec: the decode table of Go's
`base64.RawURLEncoding` (not part of the repository sources). -/
def b64Val (c : Char) : Option Nat :=
  if 'A' ≤ c ∧ c ≤ 'Z' then some (c.toNat - 'A'.toNat)
  else if 'a' ≤ c ∧ c ≤ 'z' then some (c.toNat - 'a'.toNat + 26)
  else if '0' ≤ c ∧ c ≤ '9' then some (c.toNat - '0'.toNat + 52)
  else if c = '-' then some 62
  else if c = '_' then some 63
  else none

/-- Modelled from the spec: the decode table of the unpadded
`base32.HexEncoding` (not part of the repository sources). -/
def b32Val (c : Char) : Option Nat :=
  if '0' ≤ c ∧ c ≤ '9' then some (c.toNat - '0'.toNat)
  else if 'A' ≤ c ∧ c ≤ 'V' then some (c.toNat - 'A'.toNat + 10)
  else none

/-- Look every character up in the decode table, failing on the first
character outside the alphabet. -/
def mapVals (f : Char → Option Nat) : List Char → Option (List Nat)
  | [] => some []
  | c :: cs =>
    match f c, mapVals f cs with
    | some v, some vs => some (v :: vs)
    | _, _ => none

/-- The method `Flake.Bytes` from flake.go:
`binary.BigEndian.PutUint64` of the `uint64` bit pattern — the 8-byte
big-endian representation. -/
def Flake.Bytes (f : Int) : List Nat := digitsBE 256 8 (toUInt64 f)

/-- The method `Flake.Hex` from flake.go: `hex.EncodeToString` of the 8
bytes — 16 lowercase hex characters, two per byte, equal to the 16
base-16 digits of the 64-bit value. -/
def Flake.Hex (f : Int) : String := ⟨(digitsBE 16 16 (toUInt64 f)).map hexDigitChar⟩

/-- The method `Flake.Base64` from flake.go:
`base64.RawURLEncoding.EncodeToString` of the 8 bytes — 11 characters
of 6 bits with two zero padding bits appended, equal to the 11 base-64
digits of the value shifted left by 2. -/
def Flake.Base64 (f : Int) : String :=
  ⟨(digitsBE 64 11 (toUInt64 f * 2 ^ 2)).map b64DigitChar⟩

/-- The method `Flake.Base32` from flake.go:
`base32RawEncoding.EncodeToString` of the 8 bytes — 13 characters of 5
bits with one zero padding bit appended, equal to the 13 base-32 digits
of the value shifted left by 1. -/
def Flake.Base32 (f : Int) : String :=
  ⟨(digitsBE 32 13 (toUInt64 f * 2 ^ 1)).map b32DigitChar⟩

/-- Modelled from the spec: Go's `hex.DecodeString` (not part of the
repository sources) — fails on odd length or a character outside the
table, else rebuilds the bytes. -/
def hexDecode (s : List Char) : Option (List Nat) :=
  if s.length % 2 ≠ 0 then none
  else (mapVals hexVal s).map (fun vs => digitsBE 256 (s.length / 2) (valBE 16 vs))

/-- Modelled from the spec: Go's `base64.RawURLEncoding.DecodeString`
(not part of the repository sources) — a trailing quantum of one
character is malformed, any character outside the table fails, trailing
padding bits are discarded. -/
def base64Decode (s : List Char) : Option (List Nat) :=
  if s.length % 4 = 1 then none
  else (mapVals b64Val s).map (fun vs =>
    digitsBE 256 (6 * s.length / 8) (valBE 64 vs / 2 ^ (6 * s.length % 8)))

/-- Modelled from the spec: the unpadded `base32.HexEncoding`
`DecodeString` (not part of the repository sources) — trailing quanta
of 1, 3 or 6 characters are malformed, any character outside the table
fails, trailing padding bits are discarded. -/
def base32Decode (s : List Char) : Option (List Nat) :=
  if s.length % 8 = 1 ∨ s.length % 8 = 3 ∨ s.length % 8 = 6 then none
  else (mapVals b32Val s).map (fun vs =>
    digitsBE 256 (5 * s.length / 8) (valBE 32 vs / 2 ^ (5 * s.length % 8)))

/-- The function `FromBytes` from flake.go: errors unless given exactly
8 bytes, else the big-endian value as a `Flake`.  `Option` stands for
the Go `(flake, err)` pair: `none` is the format error. -/
def FromBytes (b : List Nat) : Option Int :=
  if b.length ≠ 8 then none else some (toInt64 (valBE 256 b))

/-- The length dispatch of the function `Decode` from flake.go, on the
character list of the input: length 11 decodes as unpadded URL-safe
base64, 13 as unpadded extended-hex base32, 16 as hexadecimal, anything
else is a format error without attempting a decode; a successful
byte-decode is finished by `FromBytes`. -/
def decodeChars (s : List Char) : Option Int :=
  if s.length = 11 then (base64Decode s).bind FromBytes
  else if s.length = 13 then (base32Decode s).bind FromBytes
  else if s.length = 16 then (hexDecode s).bind FromBytes
  else none

/-- The function `Decode` from flake.go, on strings. -/
def Decode (s : String) : Option Int := decodeChars s.data

/-! ## Codec lemmas -/

theorem digitsBE_length (b k : Nat) : ∀ n, (digitsBE b k n).length = k := by
  induction k with
  | zero => intro n; rfl
  | succ k ih => intro n; simp [digitsBE, ih]

theorem digitsBE_mem_lt (b : Nat) (hb : 0 < b) :
    ∀ (k n : Nat), n < b ^ k → ∀ d ∈ digitsBE b k n, d < b := by
  intro k
  induction k with
  | zero => intro n _ d hd; simp [digitsBE] at hd
  | succ k ih =>
      intro n hn d hd
      simp only [digitsBE, List.mem_cons] at hd
      rcases hd with h | h
      · subst h
        exact Nat.div_lt_of_lt_mul (by rw [← pow_succ]; exact hn)
      · exact ih (n % b ^ k) (Nat.mod_lt _ (Nat.pos_pow_of_pos k hb)) d h

theorem valBE_foldl_acc (b : Nat) (ds : List Nat) :
    ∀ a : Nat, ds.foldl (fun a d => a * b + d) a = a * b ^ ds.length + valBE b ds := by
  induction ds with
  | nil => intro a; simp [valBE]
  | cons d ds ih =>
      intro a
      show List.foldl (fun a d => a * b + d) (a * b + d) ds
        = a * b ^ (ds.length + 1) + valBE b (d :: ds)
      have h2 : valBE b (d :: ds) = (0 * b + d) * b ^ ds.length + valBE b ds := by
        show List.foldl (fun a d => a * b + d) (0 * b + d) ds = _
        exact ih (0 * b + d)
      rw [ih (a * b + d), h2]
      ring

theorem valBE_cons (b d : Nat) (ds : List Nat) :
    valBE b (d :: ds) = d * b ^ ds.length + valBE b ds := by
  show List.foldl (fun a d => a * b + d) (0 * b + d) ds = _
  rw [valBE_foldl_acc b ds (0 * b + d)]
  ring

theorem valBE_digitsBE (b : Nat) (hb : 0 < b) :
    ∀ (k n : Nat), n < b ^ k → valBE b (digitsBE b k n) = n := by
  intro k
  induction k with
  | zero =>
      intro n hn
      simp only [pow_zero] at hn
      have hn0 : n = 0 := by omega
      subst hn0
      rfl
  | succ k ih =>
      intro n hn
      simp only [digitsBE]
      rw [valBE_cons, digitsBE_length,
        ih (n % b ^ k) (Nat.mod_lt _ (Nat.pos_pow_of_pos k hb)),
        Nat.mul_comm]
      exact Nat.div_add_mod n (b ^ k)

theorem mapVals_map (f : Char → Option Nat) (enc : Nat → Char) :
    ∀ ds : List Nat, (∀ d ∈ ds, f (enc d) = some d) →
      mapVals f (ds.map enc) = some ds := by
  intro ds
  induction ds with
  | nil => intro _; rfl
  | cons d ds ih =>
      intro h
      simp only [List.map, mapVals]
      rw [h d (by simp), ih fun d hd => h d (by simp [hd])]

theorem mapVals_eq_none_iff (f : Char → Option Nat) :
    ∀ l : List Char, mapVals f l = none ↔ ∃ c ∈ l, f c = none := by
  intro l
  induction l with
  | nil => simp [mapVals]
  | cons c cs ih =>
      simp only [mapVals]
      cases hc : f c with
      | none => simp [hc]
      | some v =>
          cases hcs : mapVals f cs with
          | none =>
              simp only [List.mem_cons]
              constructor
              · intro _
                obtain ⟨c', hc', hn⟩ := ih.mp hcs
                exact ⟨c', Or.inr hc', hn⟩
              · intro _; trivial
          | some vs =>
              simp only [List.mem_cons]
              constructor
              · intro h; exact absurd h (by simp)
              · rintro ⟨c', hc' | hc', hn⟩
                · subst hc'
                  rw [hc] at hn
                  exact absurd hn (by simp)
                · have hcontr : mapVals f cs = none := ih.mpr ⟨c', hc', hn⟩
                  rw [hcontr] at hcs
                  exact absurd hcs (by simp)

/-- Decoding inverts encoding on every hexadecimal digit. -/
theorem hexVal_hexDigitChar : ∀ d, d < 16 → hexVal (hexDigitChar d) = some d := by
  decide

/-- Decoding inverts encoding on every base-32 digit. -/
theorem b32Val_b32DigitChar : ∀ d, d < 32 → b32Val (b32DigitChar d) = some d := by
  decide

/-- Decoding inverts encoding on every base-64 digit. -/
theorem b64Val_b64DigitChar : ∀ d, d < 64 → b64Val (b64DigitChar d) = some d := by
  decide

theorem FromBytes_digitsBE (u : Nat) (hu : u < 2 ^ 64) :
    FromBytes (digitsBE 256 8 u) = some (toInt64 u) := by
  unfold FromBytes
  rw [if_neg (by rw [digitsBE_length]; omega),
    valBE_digitsBE 256 (by norm_num) 8 u (by norm_num; omega)]

theorem hex_roundtrip_chars (u : Nat) (hu : u < 2 ^ 64) :
    decodeChars ((digitsBE 16 16 u).map hexDigitChar) = some (toInt64 u) := by
  have hud : u < 16 ^ 16 := by norm_num; omega
  have hlen : ((digitsBE 16 16 u).map hexDigitChar).length = 16 := by
    rw [List.length_map, digitsBE_length]
  unfold decodeChars
  rw [hlen]
  norm_num
  unfold hexDecode
  rw [hlen]
  norm_num
  rw [mapVals_map hexVal hexDigitChar _
    (fun d hd => hexVal_hexDigitChar d (digitsBE_mem_lt 16 (by norm_num) 16 u hud d hd))]
  simp only [Option.map_some', Option.some_bind]
  rw [valBE_digitsBE 16 (by norm_num) 16 u hud]
  exact FromBytes_digitsBE u hu

theorem base64_roundtrip_chars (u : Nat) (hu : u < 2 ^ 64) :
    decodeChars ((digitsBE 64 11 (u * 2 ^ 2)).map b64DigitChar) = some (toInt64 u) := by
  have hud : u * 2 ^ 2 < 64 ^ 11 := by norm_num; omega
  have hlen : ((digitsBE 64 11 (u * 2 ^ 2)).map b64DigitChar).length = 11 := by
    rw [List.length_map, digitsBE_length]
  unfold decodeChars
  rw [hlen, if_pos rfl]
  unfold base64Decode
  rw [hlen, if_neg (by norm_num),
    show (6 : Nat) * 11 / 8 = 8 from by norm_num,
    show (6 : Nat) * 11 % 8 = 2 from by norm_num]
  rw [mapVals_map b64Val b64DigitChar _
    (fun d hd => b64Val_b64DigitChar d
      (digitsBE_mem_lt 64 (by norm_num) 11 _ hud d hd))]
  simp only [Option.map_some', Option.some_bind]
  rw [valBE_digitsBE 64 (by norm_num) 11 _ hud]
  rw [show u * 2 ^ 2 / 2 ^ 2 = u from by omega]
  exact FromBytes_digitsBE u hu

theorem base32_roundtrip_chars (u : Nat) (hu : u < 2 ^ 64) :
    decodeChars ((digitsBE 32 13 (u * 2 ^ 1)).map b32DigitChar) = some (toInt64 u) := by
  have hud : u * 2 ^ 1 < 32 ^ 13 := by norm_num; omega
  have hlen : ((digitsBE 32 13 (u * 2 ^ 1)).map b32DigitChar).length = 13 := by
    rw [List.length_map, digitsBE_length]
  unfold decodeChars
  rw [hlen, if_neg (by norm_num), if_pos rfl]
  unfold base32Decode
  rw [hlen, if_neg (by norm_num),
    show (5 : Nat) * 13 / 8 = 8 from by norm_num,
    show (5 : Nat) * 13 % 8 = 1 from by norm_num]
  rw [mapVals_map b32Val b32DigitChar _
    (fun d hd => b32Val_b32DigitChar d
      (digitsBE_mem_lt 32 (by norm_num) 13 _ hud d hd))]
  simp only [Option.map_some', Option.some_bind]
  rw [valBE_digitsBE 32 (by norm_num) 13 _ hud]
  rw [show u * 2 ^ 1 / 2 ^ 1 = u from by omega]
  exact FromBytes_digitsBE u hu

/-! ## C4: encode/decode round trips -/

/-- C4: for every 63-bit identifier `x`, each text encoding round-trips
exactly through `Decode` — `Decode (x.Hex) = x`,
`Decode (x.Base32) = x`, `Decode (x.Base64) = x` — and the raw 8-byte
big-endian form round-trips as `FromBytes (x.Bytes) = x`, with no error
in any of these cases. -/
theorem encode_roundtrip (x : Int) (h0 : 0 ≤ x) (h1 : x < 2 ^ 63) :
    Decode (Flake.Hex x) = some x ∧
    Decode (Flake.Base32 x) = some x ∧
    Decode (Flake.Base64 x) = some x ∧
    FromBytes (Flake.Bytes x) = some x := by
  have hu : toUInt64 x = x.toNat := by
    unfold toUInt64
    rw [Int.emod_eq_of_lt h0 (by omega)]
  have hub : x.toNat < 2 ^ 64 := by omega
  have hx : toInt64 x.toNat = x := by
    unfold toInt64
    rw [wrap64_eq (by omega) (by omega)]
    exact Int.toNat_of_nonneg h0
  refine ⟨?_, ?_, ?_, ?_⟩
  · show decodeChars ((digitsBE 16 16 (toUInt64 x)).map hexDigitChar) = some x
    rw [hu, hex_roundtrip_chars x.toNat hub, hx]
  · show decodeChars ((digitsBE 32 13 (toUInt64 x * 2 ^ 1)).map b32DigitChar) = some x
    rw [hu, base32_roundtrip_chars x.toNat hub, hx]
  · show decodeChars ((digitsBE 64 11 (toUInt64 x * 2 ^ 2)).map b64DigitChar) = some x
    rw [hu, base64_roundtrip_chars x.toNat hub, hx]
  · show FromBytes (digitsBE 256 8 (toUInt64 x)) = some x
    rw [hu, FromBytes_digitsBE x.toNat hub, hx]

/-- Witness for C4 at the identifier from the project README
(hex 4030404040700001 = int64 4625267462012665857). -/
theorem encode_roundtrip_witness :
    Decode (Flake.Hex 0x4030404040700001) = some 0x4030404040700001 ∧
    Decode (Flake.Base32 0x4030404040700001) = some 0x4030404040700001 ∧
    Decode (Flake.Base64 0x4030404040700001) = some 0x4030404040700001 ∧
    FromBytes (Flake.Bytes 0x4030404040700001) = some 0x4030404040700001 :=
  encode_roundtrip 0x4030404040700001 (by norm_num) (by norm_num)

/-! ## C5: decode dispatch and error behaviour -/

/-- C5: `Decode` returns a format error for every string whose length
is not 11, 13 or 16 (in particular the empty string and
`"1234567890"`); at length 11 it decodes as unpadded URL-safe base64,
at 13 as unpadded extended-hex base32, at 16 as hexadecimal — failing
exactly when some character is invalid for that encoding; and
`FromBytes` fails exactly on byte slices whose length differs from 8
(in particular a 4-byte buffer). -/
theorem Decode_dispatch_spec :
    (∀ s : String, s.data.length ≠ 11 → s.data.length ≠ 13 → s.data.length ≠ 16 →
      Decode s = none) ∧
    (∀ s : String, s.data.length = 11 →
      (Decode s = none ↔ ∃ c ∈ s.data, b64Val c = none)) ∧
    (∀ s : String, s.data.length = 13 →
      (Decode s = none ↔ ∃ c ∈ s.data, b32Val c = none)) ∧
    (∀ s : String, s.data.length = 16 →
      (Decode s = none ↔ ∃ c ∈ s.data, hexVal c = none)) ∧
    (∀ b : List Nat, FromBytes b = none ↔ b.length ≠ 8) ∧
    Decode "" = none ∧
    Decode "1234567890" = none ∧
    FromBytes [1, 2, 3, 4] = none := by
  refine ⟨?_, ?_, ?_, ?_, ?_, rfl, rfl, rfl⟩
  · intro s h11 h13 h16
    unfold Decode decodeChars
    rw [if_neg h11, if_neg h13, if_neg h16]
  · intro s h
    unfold Decode decodeChars
    rw [h, if_pos rfl]
    unfold base64Decode
    rw [h, if_neg (by norm_num)]
    cases hm : mapVals b64Val s.data with
    | none =>
        simp only [Option.map_none', Option.none_bind]
        exact iff_of_true (by trivial) ((mapVals_eq_none_iff b64Val s.data).mp hm)
    | some vs =>
        simp only [Option.map_some', Option.some_bind]
        refine iff_of_false ?_ ?_
        · unfold FromBytes
          rw [if_neg (by rw [digitsBE_length]; omega)]
          simp
        · rintro ⟨c, hc, hn⟩
          have hcontr : mapVals b64Val s.data = none :=
            (mapVals_eq_none_iff b64Val s.data).mpr ⟨c, hc, hn⟩
          rw [hcontr] at hm
          exact absurd hm (by simp)
  · intro s h
    unfold Decode decodeChars
    rw [h, if_neg (by norm_num), if_pos rfl]
    unfold base32Decode
    rw [h, if_neg (by norm_num)]
    cases hm : mapVals b32Val s.data with
    | none =>
        simp only [Option.map_none', Option.none_bind]
        exact iff_of_true (by trivial) ((mapVals_eq_none_iff b32Val s.data).mp hm)
    | some vs =>
        simp only [Option.map_some', Option.some_bind]
        refine iff_of_false ?_ ?_
        · unfold FromBytes
          rw [if_neg (by rw [digitsBE_length]; omega)]
          simp
        · rintro ⟨c, hc, hn⟩
          have hcontr : mapVals b32Val s.data = none :=
            (mapVals_eq_none_iff b32Val s.data).mpr ⟨c, hc, hn⟩
          rw [hcontr] at hm
          exact absurd hm (by simp)
  · intro s h
    unfold Decode decodeChars
    rw [h, if_neg (by norm_num), if_neg (by norm_num), if_pos rfl]
    unfold hexDecode
    rw [h, if_neg (by norm_num)]
    cases hm : mapVals hexVal s.data with
    | none =>
        simp only [Option.map_none', Option.none_bind]
        exact iff_of_true (by trivial) ((mapVals_eq_none_iff hexVal s.data).mp hm)
    | some vs =>
        simp only [Option.map_some', Option.some_bind]
        refine iff_of_false ?_ ?_
        · unfold FromBytes
          rw [if_neg (by rw [digitsBE_length]; omega)]
          simp
        · rintro ⟨c, hc, hn⟩
          have hcontr : mapVals hexVal s.data = none :=
            (mapVals_eq_none_iff hexVal s.data).mpr ⟨c, hc, hn⟩
          rw [hcontr] at hm
          exact absurd hm (by simp)
  · intro b
    by_cases h : b.length = 8
    · unfold FromBytes
      rw [if_neg (by omega)]
      exact iff_of_false (by simp) (by omega)
    · unfold FromBytes
      rw [if_pos h]
      exact iff_of_true rfl h

/-- Witness for C5 at concrete inputs: a 5-character string is rejected
by length; an 11-character string containing the invalid character
`'='` fails; the valid 11-character base64 string from the README
succeeds (does not return the error). -/
theorem Decode_dispatch_spec_witness :
    Decode "hello" = none ∧
    Decode "QDBAQEBwAA=" = none ∧
    ¬ Decode "QDBAQEBwAAE" = none := by
  refine ⟨Decode_dispatch_spec.1 "hello" (by decide) (by decide) (by decide), ?_, ?_⟩
  · exact (Decode_dispatch_spec.2.1 "QDBAQEBwAA=" (by decide)).mpr
      ⟨'=', by decide, by decide⟩
  · intro hnone
    exact absurd ((Decode_dispatch_spec.2.1 "QDBAQEBwAAE" (by decide)).mp hnone)
      (by decide)
